import Mathlib

/-
Verification development for the whim in-memory entity store
(primary table with secondary indices, plus an n-gram / Bitap fuzzy
search pipeline).

Modelling conventions, shared by all definitions below:

* Rust strings are modelled as `List Nat`, one element per `char`
  (Unicode scalar value).  Byte lengths, where the source measures
  them (`str::len`), are recovered through `utf8CharLen`.
* `str::to_lowercase` is modelled by `strLower`, which maps each
  character to a *list* of characters (`lowerChar`), because the
  Unicode mapping is one-to-many: U+0130 lowercases to "i" followed
  by U+0307, so lowercasing can change a string's character count.
  `lowerChar` covers the ASCII range and that special casing, and is
  the identity on other characters.  (The source uses the full
  Unicode table; every concrete input used below is case-stable
  under both.)
* `u32` arithmetic: all bit operations in the Bitap core are masked
  by an `&` against a value below `2 ^ 32` immediately after every
  shift, so plain `Nat` operations agree with `u32` and no explicit
  `% 2 ^ 32` is required; shift amounts stay below 32 for the
  pattern lengths the callers allow.
* `f32` scores are modelled as exact rationals (`ℚ`): every score
  produced is `1 - mm / len` for small naturals, and the claims are
  about score values and their relative order only.
* Rust panics (out-of-bounds indexing, slicing a string off a char
  boundary) are modelled by returning `none` from an `Option`-valued
  embedding; `some` is the value of a run that does not panic.
-/

namespace Whim

/-- The lowercase mapping of one character, modelling Rust
`char::to_lowercase`: the ASCII range, plus the single one-to-many
special casing of the unconditional Unicode table — U+0130 (LATIN
CAPITAL LETTER I WITH DOT ABOVE, 304) lowercases to "i" (105) followed
by U+0307 (COMBINING DOT ABOVE, 775) — so lowercasing can lengthen a
string; other characters are modelled as the identity. -/
def lowerChar (c : Nat) : List Nat :=
  if c = 304 then [105, 775]
  else if 65 ≤ c ∧ c ≤ 90 then [c + 32] else [c]

/-- Model of lowercasing a whole string (`text.to_lowercase()`). -/
def strLower (s : List Nat) : List Nat := s.flatMap lowerChar

/-- Number of bytes of the UTF-8 encoding of one scalar value. -/
def utf8CharLen (c : Nat) : Nat :=
  if c < 128 then 1 else if c < 2048 then 2 else if c < 65536 then 3 else 4

/-- Byte length of a string (`str::len` on the UTF-8 encoding). -/
def utf8Len (s : List Nat) : Nat := (s.map utf8CharLen).sum

/-!  ### Bitap scorer (src/src/search/bitap.rs)

The searcher's `pattern_mask` is a `[u32; 1024]` with
`mask[c]` holding bit `i` iff `pattern[i] == c` (built in
`SearchEngine::search` by `pattern_mask[ch as usize] |= 1 << i`).
We model the array as the function `maskOf pattern`, and model its
1024-slot bound by an explicit bound check at every access: an access
with a scalar value `≥ 1024` is an out-of-bounds panic. -/

/-- Bit mask of one character against the pattern:
`maskOf pat c` has bit `i` set iff `pat[i] = c`. -/
def maskOf (pat : List Nat) (c : Nat) : Nat :=
  pat.enum.foldl (fun acc x => if x.2 = c then acc ||| (1 <<< x.1) else acc) 0

/-- The inner loop of `BitapSearcher::get_score` over one window of text:
`r = ((r << 1) | 1) & self.pattern_mask[character as usize]`, counting the
positions `j` whose bit stays clear.  A character `≥ 1024` indexes the
1024-entry mask array out of bounds: the run panics (`none`). -/
def runWindow (mask : Nat → Nat) : List Nat → Nat → Nat → Nat → Option Nat
  | [], _, _, mm => some mm
  | c :: cs, j, r, mm =>
    if c < 1024 then
      let r1 := ((r <<< 1) ||| 1) &&& mask c
      runWindow mask cs (j + 1) r1 (if r1 &&& (1 <<< j) = 0 then mm + 1 else mm)
    else none

/-- The offset loop of `BitapSearcher::get_score`: scan the given start
offsets left to right; at the first offset whose mismatch count passes
the bound, return `1 - mismatches / pattern_len`. -/
def bitapScan (pat : List Nat) (maxM : Nat) (ltext : List Nat) :
    List Nat → Option (Option ℚ)
  | [] => some none
  | i :: rest =>
    match runWindow (maskOf pat) ((ltext.drop i).take pat.length) 0 0 0 with
    | none => none
    | some mm =>
      if mm ≤ maxM then some (some (1 - (mm : ℚ) / (pat.length : ℚ)))
      else bitapScan pat maxM ltext rest

/-- `BitapSearcher::get_score`: lowercase the text, then try every start
offset `i` in `0 ..= text_len - pattern_len` (saturating), each over the
window of `pattern_len` characters starting at `i`.  The outer `Option`
is panic-freedom, the inner one is the score. -/
def bitapGetScore (pat : List Nat) (maxM : Nat) (text : List Nat) :
    Option (Option ℚ) :=
  let ltext := strLower text
  bitapScan pat maxM ltext (List.range (ltext.length - pat.length + 1))

/-- Length of the longest common prefix of two strings. -/
def commonPrefixLen : List Nat → List Nat → Nat
  | [], _ => 0
  | _ :: _, [] => 0
  | a :: as, b :: bs => if a = b then commonPrefixLen as bs + 1 else 0

/-- Mismatch count the Bitap inner loop actually computes on a window:
the number of positions not covered by the longest common prefix of the
window and the pattern. -/
def prefixMismatches (pat w : List Nat) : Nat :=
  w.length - commonPrefixLen w pat

/-- Reference scan (amended semantics): first offset whose
`prefixMismatches` passes the bound wins. -/
def bitapSpecScan (pat : List Nat) (maxM : Nat) (ltext : List Nat) :
    List Nat → Option ℚ
  | [] => none
  | i :: rest =>
    let mm := prefixMismatches pat ((ltext.drop i).take pat.length)
    if mm ≤ maxM then some (1 - (mm : ℚ) / (pat.length : ℚ))
    else bitapSpecScan pat maxM ltext rest

/-- Reference value of `get_score` under the amended reading. -/
def bitapSpecScore (pat : List Nat) (maxM : Nat) (text : List Nat) : Option ℚ :=
  let ltext := strLower text
  bitapSpecScan pat maxM ltext (List.range (ltext.length - pat.length + 1))

/-!  ### N-gram indexer (src/src/search/ngram.rs)

`generate_ngrams` walks character windows but slices the backing UTF-8
buffer with `input[start..=end]` where `end` is the byte index of the
first byte of the window's last character.  When that character
occupies a single byte the slice is exactly the window; when it is
multi-byte, `end + 1` is not a character boundary and the slice
panics, so the run is `none`.  `generate_ngrams` itself performs no
lowercasing; its callers (`NgramIndexer::index`,
`SearchEngine::search`) lowercase before calling it. -/

/-- `NgramIndexer::generate_ngrams`. -/
def generateNgrams (n : Nat) (input : List Nat) : Option (List (List Nat)) :=
  if n = 0 ∨ input.length < n then some []
  else
    (List.range (input.length - n + 1)).mapM (fun i =>
      let w := (input.drop i).take n
      match w.getLast? with
      | some c => if utf8CharLen c = 1 then some w else none
      | none => none)

/-- State of an `NgramIndexer`: window size, the map from ngram to the
list of entry IDs recorded under it (`HashMap<String, Vec<usize>>`,
modelled as a function with default `[]`), and the current-id cursor. -/
structure NgramState where
  n : Nat
  idx : List Nat → List Nat
  currentId : Nat

/-- `NgramIndexer::new`. -/
def NgramState.new (n : Nat) : NgramState :=
  { n := n, idx := fun _ => [], currentId := 0 }

/-- Record one id under one ngram
(`self.index.entry(ngram).or_default().push(self.current_id)`). -/
def ngramPush (m : List Nat → List Nat) (g : List Nat) (id : Nat) :
    List Nat → List Nat :=
  fun g2 => if g2 = g then m g2 ++ [id] else m g2

/-- `NgramIndexer::index`: lowercase the input, generate its ngrams and
record the current id under each of them. -/
def ngramIndex (st : NgramState) (input : List Nat) : Option NgramState :=
  let inp := strLower input
  (generateNgrams st.n inp).map (fun gs =>
    { st with idx := gs.foldl (fun m g => ngramPush m g st.currentId) st.idx })

/-!  ### Search engine (src/src/search/mod.rs)

The engine is generic over the `Searchable` entry type.  A `Searchable`
value interacts with the engine only through the strings it feeds to
`NgramIndexer::index` and scores with `BitapSearcher::get_score`
(`set_current_id` is crate-private, so implementations cannot touch the
cursor).  We therefore model an entry type `T` by the list
`texts e` of its string leaves: the provided instances (`String`,
`Vec`, `Option`, the wrapper pass-throughs and the derive-generated
struct instances) all index every leaf in order and score with the
maximum of the present leaf scores, folded from `0` — which is the
maximum itself since every Bitap score is nonnegative. -/

/-- A `SearchEngine<T>`: snapshot, Bitap tolerance, ngram indexer. -/
structure SearchEngineSt (T : Type) where
  entries : List T
  maxBitapMismatches : Nat
  indexer : NgramState

variable {T : Type}

/-- Index one entry: feed each of its string leaves to the indexer
(`entry.index(&mut engine.indexer)`). -/
def indexEntry (texts : T → List (List Nat)) (st : NgramState) (e : T) :
    Option NgramState :=
  (texts e).foldlM ngramIndex st

/-- `SearchEngine::new`: store the snapshot and index every entry with
the cursor set to its position. -/
def mkEngine (texts : T → List (List Nat)) (data : List T)
    (ngramSize maxDistance : Nat) : Option (SearchEngineSt T) := do
  let st ← data.enum.foldlM
    (fun st p => indexEntry texts { st with currentId := p.1 } p.2)
    (NgramState.new ngramSize)
  pure { entries := data, maxBitapMismatches := maxDistance, indexer := st }

/-- `Searchable::get_score` of one entry against the query: the leaf
scores that are present, folded with `max` from `0`
(absent when every leaf is absent). -/
def scoreOfEntry (texts : T → List (List Nat)) (pat : List Nat) (maxM : Nat)
    (e : T) : Option (Option ℚ) :=
  ((texts e).mapM (fun s => bitapGetScore pat maxM s)).map (fun l =>
    let sc := l.filterMap id
    if sc.isEmpty then none else some (sc.foldl max 0))

/-- Score the candidate ids in order, keeping (id, entry, score) for
those whose score is present (`candidates.into_iter().filter_map`);
an id outside the snapshot would be `self.entries[id]` out of bounds. -/
def scoreCandidates (texts : T → List (List Nat)) (entries : List T)
    (pat : List Nat) (maxM : Nat) : List Nat → Option (List (Nat × T × ℚ))
  | [] => some []
  | id :: rest => do
    let e ← entries.get? id
    let sc ← scoreOfEntry texts pat maxM e
    let tail ← scoreCandidates texts entries pat maxM rest
    match sc with
    | some s => pure ((id, e, s) :: tail)
    | none => pure tail

/-- Insert one scored candidate into a list sorted by descending score. -/
def insertByScore (x : Nat × T × ℚ) :
    List (Nat × T × ℚ) → List (Nat × T × ℚ)
  | [] => [x]
  | y :: ys => if y.2.2 ≤ x.2.2 then x :: y :: ys else y :: insertByScore x ys

/-- Sort scored candidates by descending score
(`results.sort_by(|a, b| b.score.partial_cmp(&a.score) ...)`; scores
are never NaN, and tie order is unspecified in the source). -/
def sortByScore : List (Nat × T × ℚ) → List (Nat × T × ℚ)
  | [] => []
  | x :: xs => insertByScore x (sortByScore xs)

/-- The length gate of `SearchEngine::search`:
`query.is_empty() || query.len() > u32::BITS as usize` — `str::len`
counts UTF-8 bytes. -/
def queryRejected (q : List Nat) : Bool :=
  q.isEmpty || decide (32 < utf8Len q)

/-- The body of `SearchEngine::search` past the length gate: lowercase,
build the 1024-slot character mask (a lowercased query character
`≥ 1024` makes `pattern_mask[ch as usize] |= 1 << i` panic), generate
the query's ngrams, accumulate candidate ids (deduplicated by the
`HashMap` keying), score them and sort by descending score. -/
def searchBody (texts : T → List (List Nat)) (E : SearchEngineSt T)
    (q : List Nat) : Option (List (Nat × T × ℚ)) :=
  let lq := strLower q
  if lq.all (fun c => decide (c < 1024)) then
    match generateNgrams E.indexer.n lq with
    | none => none
    | some gs =>
      let cands := (gs.flatMap (fun g => E.indexer.idx g)).dedup
      (scoreCandidates texts E.entries lq E.maxBitapMismatches cands).map
        sortByScore
  else none

/-- `SearchEngine::search`: the empty list at the gate, otherwise the
sorted scored candidates (ids dropped, as in `SearchResult`). -/
def searchFn (texts : T → List (List Nat)) (E : SearchEngineSt T)
    (q : List Nat) : Option (List (T × ℚ)) :=
  if queryRejected q then some []
  else (searchBody texts E q).map (List.map (fun x => x.2))

/-!  ### Index storage and the table (src/src/tables.rs, §4.7–§4.8)

`Table` drives its registered indexers through the `Indexer` contract
(`index`, `forget`, `as_any`); each generated indexer wraps an
`IndexStorage<K, T>` (see src/codegen/src/lib.rs).  The
`src/src/indices.rs` present in this snapshot is a stale revision — its
`Indexer` trait (a lone `get_indicies`) and one-parameter, stringly
keyed `IndexStorage` do not compile against `tables.rs` or against the
code the codegen emits — so the typed storage is modelled from the
spec; its per-key algorithm coincides with the one the stale file
implements.  The stale stringly revision itself is embedded further
below for the claim about lookup typing. -/

variable {K : Type} [DecidableEq K]

/-- Modelled from the spec: `IndexStorage<K, T>::push(keys, entry)`
(§4.7), the typed storage missing from this snapshot of src — for each
key, append the entry to that key's list.  The ordered map is modelled
as a function with default `[]`; dropping an emptied key (observable
only through key-presence, not through `get`) is therefore implicit. -/
def storagePush (s : K → List T) (keys : List K) (e : T) : K → List T :=
  keys.foldl (fun s k => fun k2 => if k2 = k then s k2 ++ [e] else s k2) s

/-- Remove the first element whose Id matches
(`entities.iter().position(|e| e.get_id() == entity.get_id())` then
`remove(pos)` in the storage's forget). -/
def removeFirstBy (getId : T → String) (id : String) : List T → List T
  | [] => []
  | x :: xs => if getId x = id then xs else x :: removeFirstBy getId id xs

/-- Modelled from the spec: `IndexStorage<K, T>::forget(keys, entry)`
(§4.7) — for each key, remove the first occurrence matching the entry
by Id. -/
def storageForget (getId : T → String) (s : K → List T) (keys : List K)
    (e : T) : K → List T :=
  keys.foldl
    (fun s k => fun k2 =>
      if k2 = k then removeFirstBy getId (getId e) (s k2) else s k2) s

/-- One registered indexer as the codegen wrapper holds it: the (pure)
generator producing the key sequence of an entry, and its storage. -/
structure IdxState (K T : Type) where
  gen : T → List K
  storage : K → List T

/-- `Indexer::index`: push the entry under its generated keys. -/
def idxIndex (ix : IdxState K T) (e : T) : IdxState K T :=
  { ix with storage := storagePush ix.storage (ix.gen e) e }

/-- `Indexer::forget`: remove the entry, by Id, from its generated keys. -/
def idxForget (getId : T → String) (ix : IdxState K T) (e : T) : IdxState K T :=
  { ix with storage := storageForget getId ix.storage (ix.gen e) e }

/-- The two error values of the store (type names omitted: they are
static strings attached for display only). -/
inductive DbErr where
  | entityAlreadyExists (id : String) : DbErr
  | entityNotFound (id : String) : DbErr
deriving DecidableEq

/-- A `Table<T>`: the primary `BTreeMap<Id, Entry>` (association list
with unique keys), the registry of indexers keyed by `TypeId`
(modelled as a `Nat` tag; all registered generators are modelled with
one key type `K`, registered indexers being independent of each
other), and the lazily built search-engine cache (modelled by the
snapshot it was built from). -/
structure TableSt (K T : Type) where
  entities : List (String × T)
  indices : List (Nat × IdxState K T)
  cache : Option (List T)

/-- The empty table (`Table::default`). -/
def TableSt.empty : TableSt K T :=
  { entities := [], indices := [], cache := none }

/-- `BTreeMap::get` on the primary map. -/
def entLookup (id : String) : List (String × T) → Option T
  | [] => none
  | p :: ps => if p.1 = id then some p.2 else entLookup id ps

/-- `BTreeMap::insert` on the primary map: replace or add. -/
def entStore (id : String) (e : T) : List (String × T) → List (String × T)
  | [] => [(id, e)]
  | p :: ps => if p.1 = id then (id, e) :: ps else p :: entStore id e ps

/-- `BTreeMap::remove` on the primary map (id keys are unique). -/
def entErase (id : String) : List (String × T) → List (String × T)
  | [] => []
  | p :: ps => if p.1 = id then ps else p :: entErase id ps

/-- `Table::insert`: fail if the Id is present; otherwise index the new
entry in every registered indexer, store it and invalidate the search
cache. -/
def tableInsert (getId : T → String) (tbl : TableSt K T) (e : T) :
    TableSt K T × Option DbErr :=
  if (entLookup (getId e) tbl.entities).isSome then
    (tbl, some (DbErr.entityAlreadyExists (getId e)))
  else
    ({ entities := entStore (getId e) e tbl.entities,
       indices := tbl.indices.map (fun p => (p.1, idxIndex p.2 e)),
       cache := none }, none)

/-- `Table::update`: fail if the Id is absent; otherwise forget the old
entry and index the new one in every registered indexer, replace the
stored entry and invalidate the search cache. -/
def tableUpdate (getId : T → String) (tbl : TableSt K T) (e : T) :
    TableSt K T × Option DbErr :=
  match entLookup (getId e) tbl.entities with
  | none => (tbl, some (DbErr.entityNotFound (getId e)))
  | some old =>
    ({ entities := entStore (getId e) e tbl.entities,
       indices := tbl.indices.map
         (fun p => (p.1, idxIndex (idxForget getId p.2 old) e)),
       cache := none }, none)

/-- `Table::delete`: `entities.remove(id)` runs first (a no-op on an
absent id); on a hit the removed entry is forgotten by every registered
indexer and the search cache is invalidated. -/
def tableDelete (getId : T → String) (tbl : TableSt K T) (id : String) :
    TableSt K T × Option DbErr :=
  match entLookup id tbl.entities with
  | none =>
    ({ tbl with entities := entErase id tbl.entities },
     some (DbErr.entityNotFound id))
  | some old =>
    ({ entities := entErase id tbl.entities,
       indices := tbl.indices.map (fun p => (p.1, idxForget getId p.2 old)),
       cache := none }, none)

/-- `Table::add_index`: skip if an indexer of this type is registered;
otherwise backfill the fresh indexer over every stored entry and
register it.  (The search cache is not touched.) -/
def tableAddIndex (tbl : TableSt K T) (tid : Nat) (gen : T → List K) :
    TableSt K T :=
  if (tbl.indices.find? (fun p => p.1 == tid)).isSome then tbl
  else
    let ix := tbl.entities.foldl (fun ix p => idxIndex ix p.2)
      { gen := gen, storage := fun _ => [] }
    { tbl with indices := tbl.indices ++ [(tid, ix)] }

/-- One table operation of the public mutating API. -/
inductive TableOp (K T : Type) where
  | ins (e : T) : TableOp K T
  | upd (e : T) : TableOp K T
  | del (id : String) : TableOp K T
  | addIdx (tid : Nat) (gen : T → List K) : TableOp K T

/-- Apply one operation, keeping the table (errors leave it as the
operation left it). -/
def stepOp (getId : T → String) (tbl : TableSt K T) :
    TableOp K T → TableSt K T
  | TableOp.ins e => (tableInsert getId tbl e).1
  | TableOp.upd e => (tableUpdate getId tbl e).1
  | TableOp.del id => (tableDelete getId tbl id).1
  | TableOp.addIdx tid gen => tableAddIndex tbl tid gen

/-- The table reached by a sequence of operations from the empty table. -/
def runOps (getId : T → String) (ops : List (TableOp K T)) : TableSt K T :=
  ops.foldl (stepOp getId) TableSt.empty

/-!  ### The stale stringly index storage (src/src/indices.rs)

The revision present in the snapshot: `Index` is a newtype over
`String`, every key type reaches it through its `Display` rendering
(`impl<T: Display> From<T> for Index`), and `IndexStorage::get` takes
`&str`.  Embedded to evaluate key conflation. -/

/-- `Index::from` on an integer key (`Display` renders the decimal). -/
def indexOfNat (v : Nat) : String := toString v

/-- `Index::from` on a string key (`Display` renders the string itself). -/
def indexOfStr (s : String) : String := s

/-- The stale `IndexStorage<E>.data : BTreeMap<Index, Vec<Entry<E>>>`
with `index` pushing under each rendered key. -/
def stringlyPush (s : String → List T) (keys : List String) (e : T) :
    String → List T :=
  keys.foldl (fun s k => fun k2 => if k2 = k then s k2 ++ [e] else s k2) s

/-- The stale `IndexStorage::get(&self, key: &str)`:
`self.data.get(&key.into())`. -/
def stringlyGet (s : String → List T) (key : String) : List T :=
  s key

/-!  ### Concrete objects used by witnesses -/

/-- The `Searchable` shape of a plain `String` entry: one text leaf,
itself. -/
def textsSelf : List Nat → List (List Nat) := fun s => [s]

/-- A search engine over no entries with the default configuration
(`ngram_size = 3`, `max_distance = 2`). -/
def engEmpty : SearchEngineSt (List Nat) :=
  { entries := [], maxBitapMismatches := 2, indexer := NgramState.new 3 }

/-!  ### Helper lemmas -/

theorem mapM_eq_map_of_forall_some {α β : Type} (f : α → Option β)
    (g : α → β) : ∀ (l : List α), (∀ a ∈ l, f a = some (g a)) →
    l.mapM f = some (l.map g) := by
  intro l
  induction l with
  | nil => intro _; rfl
  | cons a l ih =>
    intro h
    rw [List.mapM_cons, h a (List.mem_cons_self a l),
      ih (fun b hb => h b (List.mem_cons_of_mem a hb))]
    rfl

theorem length_le_utf8Len (s : List Nat) : s.length ≤ utf8Len s := by
  induction s with
  | nil => simp [utf8Len]
  | cons c cs ih =>
    have h1 : 1 ≤ utf8CharLen c := by
      unfold utf8CharLen; split <;> [skip; split] <;> [skip; skip; split] <;> omega
    simp only [utf8Len, List.map_cons, List.sum_cons, List.length_cons] at ih ⊢
    omega

/-!  ### C4: generate_ngrams -/

/-- C4 counterexample.  The claim says `generate_ngrams` lowercases its
input first and produces every window of exactly N characters for every
input.  The code does neither: on "AB" with N = 2 it produces the
window "AB" unchanged (lowercasing is done by the callers), and on "aé"
the inclusive byte slice `input[start..=end]` ends in the middle of the
two-byte final character and panics. -/
theorem C4_generate_ngrams_counterexample :
    generateNgrams 2 [65, 66] = some [[65, 66]] ∧
    strLower [65, 66] = [97, 98] ∧ [[65, 66]] ≠ [[97, 98]] ∧
    generateNgrams 2 [97, 233] = none := by
  refine ⟨rfl, rfl, by decide, rfl⟩

/-- C4 amended: `generate_ngrams` does not lowercase (its callers do).
It produces nothing when `ngram_size = 0` or the input is shorter than
`ngram_size`; when every character of the input is a single UTF-8 byte,
it produces every contiguous window of exactly `ngram_size` characters
in left-to-right order; a window whose final character is multi-byte
makes the inclusive byte slice panic. -/
theorem C4_generate_ngrams_windows (n : Nat) (input : List Nat) :
    (n = 0 ∨ input.length < n → generateNgrams n input = some []) ∧
    (0 < n → n ≤ input.length → (∀ c ∈ input, utf8CharLen c = 1) →
      generateNgrams n input =
        some ((List.range (input.length - n + 1)).map
          (fun i => (input.drop i).take n))) := by
  constructor
  · intro h
    unfold generateNgrams
    rw [if_pos h]
  · intro hn hlen hbyte
    unfold generateNgrams
    rw [if_neg (by omega)]
    refine mapM_eq_map_of_forall_some _ _ _ ?_
    intro i hi
    have hwin : ((input.drop i).take n).length = n := by
      rw [List.mem_range] at hi
      rw [List.length_take, List.length_drop]
      omega
    have hne : (input.drop i).take n ≠ [] := by
      intro h0; rw [h0] at hwin; simp at hwin; omega
    obtain ⟨c, hc⟩ : ∃ c, ((input.drop i).take n).getLast? = some c := by
      cases h : ((input.drop i).take n).getLast? with
      | none => exact absurd (List.getLast?_eq_none_iff.mp h) hne
      | some c => exact ⟨c, rfl⟩
    have hcmem : c ∈ input := by
      have h1 : c ∈ (input.drop i).take n := List.mem_of_mem_getLast? hc
      exact (List.drop_sublist i input).mem ((List.take_sublist n _).mem h1)
    simp only [hc, hbyte c hcmem, if_pos]

/-- C4 witness: the amended theorem evaluated on a concrete all-ASCII
input. -/
theorem C4_generate_ngrams_windows_witness :
    generateNgrams 2 [] = some [] ∧
    generateNgrams 2 [104, 105, 33] = some [[104, 105], [105, 33]] := by
  refine ⟨(C4_generate_ngrams_windows 2 []).1 (by decide), ?_⟩
  have h := (C4_generate_ngrams_windows 2 [104, 105, 33]).2
    (by decide) (by decide) (by decide)
  rw [h]; rfl

/-!  ### C6: out-of-range characters panic the mask lookups -/

/-- C6: the claim (and the spec) require characters whose scalar value
is outside the 1024-slot mask table to be handled consistently rather
than indexing out of bounds.  The code does index out of bounds: the
euro sign U+20AC (scalar 8364) panics `BitapSearcher::get_score` at
`self.pattern_mask[character as usize]`, and panics
`SearchEngine::search` at `pattern_mask[ch as usize] |= 1 << i` even on
an empty engine — both runs are modelled by `none`. -/
theorem C6_mask_out_of_bounds :
    bitapGetScore [97] 0 [8364] = none ∧
    searchFn textsSelf engEmpty [8364] = none := by
  exact ⟨rfl, rfl⟩

/-!  ### C7: the length gate counts bytes, not characters -/

/-- C7 counterexample: a query of 17 characters "é" (two UTF-8 bytes
each, 34 bytes total) is non-empty and well under 32 characters, yet
`query.len() > u32::BITS as usize` measures bytes and rejects it. -/
theorem C7_length_gate_counterexample :
    queryRejected (List.replicate 17 233) = true ∧
    (List.replicate 17 233).length ≤ 32 ∧
    List.replicate 17 233 ≠ ([] : List Nat) := by
  refine ⟨rfl, by decide, by decide⟩

/-- C7 amended: `search` returns the empty list when the query is empty
or longer than 32 UTF-8 bytes; the limit is counted in bytes, so every
non-empty query of at most 32 bytes passes the gate and proceeds to the
search body (candidate generation and scoring).  A query of more than
32 characters is in particular rejected, since a character occupies at
least one byte. -/
theorem C7_length_gate {T : Type} (texts : T → List (List Nat))
    (E : SearchEngineSt T) (q : List Nat) :
    (q = [] ∨ 32 < q.length → searchFn texts E q = some []) ∧
    (q ≠ [] → utf8Len q ≤ 32 →
      searchFn texts E q = (searchBody texts E q).map (List.map (fun x => x.2))) ∧
    (32 < utf8Len q → searchFn texts E q = some []) := by
  refine ⟨?_, ?_, ?_⟩
  · rintro (rfl | h)
    · rfl
    · have hb : 32 < utf8Len q := lt_of_lt_of_le h (length_le_utf8Len q)
      unfold searchFn queryRejected
      rw [if_pos (by simp [hb])]
  · intro hne hle
    unfold searchFn queryRejected
    rw [if_neg (by simp [hne, Nat.not_lt.mpr hle])]
  · intro h
    unfold searchFn queryRejected
    rw [if_pos (by simp [h])]

/-- C7 witness: a one-character query passes the gate and reaches the
search body; a 33-character ASCII query is rejected. -/
theorem C7_length_gate_witness :
    searchFn textsSelf engEmpty [97] =
      (searchBody textsSelf engEmpty [97]).map (List.map (fun x => x.2)) ∧
    searchFn textsSelf engEmpty (List.replicate 33 97) = some [] := by
  exact ⟨(C7_length_gate textsSelf engEmpty [97]).2.1 (by decide) (by decide),
    (C7_length_gate textsSelf engEmpty (List.replicate 33 97)).2.2 (by decide)⟩

/-!  ### C9: the stale storage conflates keys through stringification -/

/-- C9: in the revision of `indices.rs` present in the snapshot, every
key reaches the storage through its `Display` rendering
(`Index(String)`), and `IndexStorage::get` takes `&str`.  The integer
key `1` and the string key "1" therefore land in the same slot: an
entry indexed under the u64 key `1` is returned by a lookup with the
string "1".  The claim (with §4.7–§4.8 and the callers in `tables.rs`
and the codegen, which only compile against the typed
`IndexStorage<K, T>`) requires typed, non-conflating lookups. -/
theorem C9_stringly_key_conflation :
    indexOfNat 1 = indexOfStr "1" ∧
    stringlyGet (stringlyPush (fun _ => ([] : List Nat)) [indexOfNat 1] 42)
      (indexOfStr "1") = [42] := by
  exact ⟨rfl, rfl⟩

/-!  ### C10: a query shorter than the ngram size yields no candidates -/

/-- The engine built from the one-entry snapshot ["İa"]
(U+0130, 'a') with the default configuration. -/
def engIstanbul : SearchEngineSt (List Nat) :=
  (mkEngine textsSelf [[304, 97]] 3 2).getD engEmpty

/-- The result of searching "İa" on `engIstanbul`. -/
def resIstanbul : List (List Nat × ℚ) :=
  (searchFn textsSelf engIstanbul [304, 97]).getD []

/-- C10 counterexample: the claim quantifies over every query that
passes the length gate, and it fails twice over.  The one-character
query "€" (scalar 8364) passes the gate (3 bytes) and is shorter than
`ngram_size = 3`, but `search` does not return the empty list: it
panics building the character mask before n-gram generation is
reached.  And the two-character query "İa" (scalars 304, 97; 3 bytes)
passes the gate, is shorter than `ngram_size = 3`, and every
lowercased character is below 1024 — yet lowercasing is one-to-many
("İ" becomes "i" plus a combining dot, so "İa" lowercases to three
characters), the query does generate the trigram "i̇a", and on a
snapshot containing "İa" `search` returns that entry, not the empty
list. -/
theorem C10_short_query_counterexample :
    (queryRejected [8364] = false ∧
      [8364].length < engEmpty.indexer.n ∧
      searchFn textsSelf engEmpty [8364] = none) ∧
    (queryRejected [304, 97] = false ∧
      [304, 97].length < engIstanbul.indexer.n ∧
      (∀ c ∈ strLower [304, 97], c < 1024) ∧
      searchFn textsSelf engIstanbul [304, 97] = some resIstanbul ∧
      resIstanbul.length = 1 ∧
      resIstanbul.map Prod.fst = [[304, 97]]) := by
  exact ⟨⟨rfl, by decide, rfl⟩, rfl, by decide, by decide, rfl, rfl, rfl⟩

/-- C10 amended: for every engine with `ngram_size ≥ 1` and every
non-empty query of at most 32 bytes whose LOWERCASED form has fewer
than `ngram_size` characters, all of them below 1024 (so that the mask
build does not panic), `search` returns the empty list regardless of
the entries in the snapshot: the lowercased query produces no n-grams,
hence no candidates.  The bound must be on the lowercased form because
lowercasing is one-to-many and can lengthen the query. -/
theorem C10_short_query_no_candidates {T : Type}
    (texts : T → List (List Nat)) (E : SearchEngineSt T) (q : List Nat)
    (hn : 1 ≤ E.indexer.n) (hne : q ≠ []) (hlen : utf8Len q ≤ 32)
    (hshort : (strLower q).length < E.indexer.n)
    (hchars : ∀ c ∈ strLower q, c < 1024) :
    searchFn texts E q = some [] := by
  unfold searchFn queryRejected
  rw [if_neg (by simp [hne, Nat.not_lt.mpr hlen])]
  unfold searchBody
  have hall : (strLower q).all (fun c => decide (c < 1024)) = true := by
    rw [List.all_eq_true]
    intro c hcm
    exact decide_eq_true (hchars c hcm)
  rw [if_pos hall]
  have hgen : generateNgrams E.indexer.n (strLower q) = some [] := by
    unfold generateNgrams
    rw [if_pos (Or.inr hshort)]
  rw [hgen]
  rfl

/-!  ### C3: the Bitap scorer -/

theorem commonPrefixLen_nil (p : List Nat) : commonPrefixLen [] p = 0 := rfl

theorem commonPrefixLen_cons_nil (a : Nat) (as : List Nat) :
    commonPrefixLen (a :: as) [] = 0 := rfl

theorem commonPrefixLen_cons_cons (a b : Nat) (as bs : List Nat) :
    commonPrefixLen (a :: as) (b :: bs) =
      if a = b then commonPrefixLen as bs + 1 else 0 := rfl

theorem one_shiftLeft_eq (k : Nat) : (1 : Nat) <<< k = 2 ^ k := by
  simp [Nat.shiftLeft_eq]

theorem and_shift_eq_zero_iff (r k : Nat) :
    (r &&& (1 <<< k) = 0) ↔ r.testBit k = false := by
  rw [one_shiftLeft_eq, Nat.and_two_pow]
  cases h : r.testBit k
  · simp
  · simp [Nat.pow_eq_zero]

theorem testBit_maskOf_aux (c k : Nat) :
    ∀ (l : List (Nat × Nat)) (acc : Nat),
      ((l.foldl (fun acc x => if x.2 = c then acc ||| (1 <<< x.1) else acc)
        acc).testBit k) =
      (acc.testBit k || l.any (fun x => decide (x.1 = k) && decide (x.2 = c))) := by
  intro l
  induction l with
  | nil => intro acc; simp
  | cons y l ih =>
    intro acc
    rw [List.foldl_cons, List.any_cons, ih]
    by_cases hy : y.2 = c
    · rw [if_pos hy, Nat.testBit_or, one_shiftLeft_eq, Nat.testBit_two_pow]
      cases h1 : acc.testBit k <;> cases h2 : decide (y.1 = k) <;> simp_all
    · rw [if_neg hy]
      simp [hy]

theorem testBit_maskOf (pat : List Nat) (c k : Nat) :
    (maskOf pat c).testBit k = decide (pat.get? k = some c) := by
  unfold maskOf
  rw [testBit_maskOf_aux, Nat.zero_testBit, Bool.false_or, Bool.eq_iff_iff,
    List.any_eq_true, decide_eq_true_iff]
  constructor
  · rintro ⟨x, hx, hpred⟩
    rw [Bool.and_eq_true, decide_eq_true_iff, decide_eq_true_iff] at hpred
    have hxkc : x = (k, c) := Prod.ext hpred.1 hpred.2
    rw [hxkc] at hx
    exact List.mk_mem_enum_iff_get?.mp hx
  · intro h
    exact ⟨(k, c), List.mk_mem_enum_iff_get?.mpr h, by simp⟩

theorem append_singleton_eq_take_succ (pat w : List Nat) (c : Nat) :
    (w ++ [c] = pat.take (w.length + 1)) ↔
      (w = pat.take w.length ∧ pat.get? w.length = some c) := by
  cases hp : pat.get? w.length with
  | some a =>
    rw [List.take_succ, ← List.get?_eq_getElem?, hp]
    obtain ⟨hlt, -⟩ := List.get?_eq_some.mp hp
    have hlen : (pat.take w.length).length = w.length := by
      rw [List.length_take]; omega
    simp only [Option.toList_some]
    constructor
    · intro h
      obtain ⟨h1, h2⟩ := List.append_inj h (by rw [hlen])
      have hca : a = c := by
        have := h2.symm
        simpa using this
      exact ⟨h1, by rw [hca]⟩
    · rintro ⟨h1, h2⟩
      have hca : a = c := by injection h2
      rw [← h1, hca]
  | none =>
    have hle : pat.length ≤ w.length := List.get?_eq_none.mp hp
    constructor
    · intro h
      exfalso
      have hl := congrArg List.length h
      rw [List.length_append, List.length_take] at hl
      simp at hl
      omega
    · rintro ⟨-, h2⟩
      exact absurd h2 (by simp)

theorem commonPrefixLen_le_length (w : List Nat) :
    ∀ p : List Nat, commonPrefixLen w p ≤ w.length := by
  induction w with
  | nil => intro p; rw [commonPrefixLen_nil]; exact Nat.zero_le _
  | cons d ds ih =>
    intro p
    cases p with
    | nil => rw [commonPrefixLen_cons_nil]; exact Nat.zero_le _
    | cons a as =>
      rw [commonPrefixLen_cons_cons]
      by_cases hda : d = a
      · rw [if_pos hda, List.length_cons]
        exact Nat.succ_le_succ (ih as)
      · rw [if_neg hda]
        exact Nat.zero_le _

theorem commonPrefixLen_eq_length_iff (w : List Nat) :
    ∀ p : List Nat, commonPrefixLen w p = w.length ↔ w = p.take w.length := by
  induction w with
  | nil => intro p; simp [commonPrefixLen_nil]
  | cons d ds ih =>
    intro p
    cases p with
    | nil =>
      rw [commonPrefixLen_cons_nil]
      simp
    | cons a as =>
      rw [commonPrefixLen_cons_cons, List.length_cons, List.take_succ_cons]
      by_cases hda : d = a
      · subst hda
        rw [if_pos rfl, add_left_inj]
        simp only [List.cons.injEq, true_and]
        exact ih as
      · rw [if_neg hda]
        constructor
        · intro h; omega
        · intro h
          exact absurd (List.cons.injEq .. ▸ h).1 hda

theorem commonPrefixLen_append_singleton (c : Nat) (w : List Nat) :
    ∀ p : List Nat, commonPrefixLen (w ++ [c]) p =
      if w ++ [c] = p.take (w.length + 1) then w.length + 1
      else commonPrefixLen w p := by
  induction w with
  | nil =>
    intro p
    cases p with
    | nil =>
      rw [List.nil_append, List.take_nil, commonPrefixLen_cons_nil,
        commonPrefixLen_nil, if_neg (by simp)]
    | cons a as =>
      rw [List.nil_append, List.length_nil, List.take_succ_cons, List.take_zero,
        commonPrefixLen_cons_cons, commonPrefixLen_nil, commonPrefixLen_nil]
      by_cases hca : c = a
      · rw [if_pos hca, if_pos (by rw [hca])]
      · rw [if_neg hca, if_neg (by intro h; exact hca (List.cons.injEq .. ▸ h).1)]
  | cons d ds ih =>
    intro p
    cases p with
    | nil =>
      rw [List.cons_append, commonPrefixLen_cons_nil, commonPrefixLen_cons_nil,
        List.take_nil, if_neg (by simp)]
    | cons a as =>
      rw [List.cons_append, commonPrefixLen_cons_cons, commonPrefixLen_cons_cons,
        List.length_cons, List.take_succ_cons]
      by_cases hda : d = a
      · rw [if_pos hda, if_pos hda, ih as]
        by_cases hcond : ds ++ [c] = as.take (ds.length + 1)
        · rw [if_pos hcond, if_pos (by rw [hda, hcond])]
        · rw [if_neg hcond,
            if_neg (by
              intro h
              exact hcond (List.cons.injEq .. ▸ h).2)]
      · rw [if_neg hda, if_neg hda,
          if_neg (by intro h; exact hda (List.cons.injEq .. ▸ h).1)]


theorem runWindow_nil (mask : Nat → Nat) (j r mm : Nat) :
    runWindow mask [] j r mm = some mm := rfl

theorem runWindow_cons_lt (mask : Nat → Nat) (c : Nat) (cs : List Nat)
    (j r mm : Nat) (hc : c < 1024) :
    runWindow mask (c :: cs) j r mm =
      runWindow mask cs (j + 1) (((r <<< 1) ||| 1) &&& mask c)
        (if (((r <<< 1) ||| 1) &&& mask c) &&& (1 <<< j) = 0
         then mm + 1 else mm) := by
  simp only [runWindow, if_pos hc]

theorem runWindow_go (pat : List Nat) :
    ∀ (rest w0 : List Nat) (r mm : Nat),
      (∀ c ∈ rest, c < 1024) →
      (w0 = [] ∨ r.testBit (w0.length - 1) = decide (w0 = pat.take w0.length)) →
      mm = w0.length - commonPrefixLen w0 pat →
      runWindow (maskOf pat) rest w0.length r mm =
        some ((w0 ++ rest).length - commonPrefixLen (w0 ++ rest) pat) := by
  intro rest
  induction rest with
  | nil =>
    intro w0 r mm _ _ hmm
    rw [List.append_nil, runWindow_nil, hmm]
  | cons c cs ih =>
    intro w0 r mm hlt hdiag hmm
    have hc : c < 1024 := hlt c (List.mem_cons_self c cs)
    rw [runWindow_cons_lt _ _ _ _ _ _ hc]
    have hA : ((r <<< 1) ||| 1).testBit w0.length =
        decide (w0 = pat.take w0.length) := by
      cases w0 with
      | nil =>
        rw [List.length_nil, Nat.testBit_or]
        simp [Nat.testBit_shiftLeft]
      | cons d ds =>
        rcases hdiag with h | h
        · exact absurd h (by simp)
        · rw [List.length_cons]
          have hsucc : ((r <<< 1) ||| 1).testBit (ds.length + 1) =
              r.testBit ds.length := by
            rw [Nat.testBit_or, Nat.testBit_shiftLeft]
            simp [Nat.testBit_succ]
          rw [hsucc]
          simpa using h
    have hbit : (((r <<< 1) ||| 1) &&& maskOf pat c).testBit w0.length =
        decide (w0 ++ [c] = pat.take (w0.length + 1)) := by
      rw [Nat.testBit_and, testBit_maskOf, hA,
        show decide (w0 ++ [c] = pat.take (w0.length + 1)) =
          (decide (w0 = pat.take w0.length) &&
           decide (pat.get? w0.length = some c)) from by
          rw [← Bool.decide_and]
          exact decide_eq_decide.mpr (append_singleton_eq_take_succ pat w0 c)]
    have hcondIff : (((r <<< 1) ||| 1) &&& maskOf pat c) &&& (1 <<< w0.length) = 0 ↔
        ¬ (w0 ++ [c] = pat.take (w0.length + 1)) := by
      rw [and_shift_eq_zero_iff, hbit]
      simp
    have hle := commonPrefixLen_le_length w0 pat
    have hmm1 : (if (((r <<< 1) ||| 1) &&& maskOf pat c) &&& (1 <<< w0.length) = 0
          then mm + 1 else mm) =
        (w0 ++ [c]).length - commonPrefixLen (w0 ++ [c]) pat := by
      rw [commonPrefixLen_append_singleton, List.length_append,
        List.length_singleton]
      by_cases hP : w0 ++ [c] = pat.take (w0.length + 1)
      · rw [if_neg (by rw [hcondIff]; exact not_not_intro hP), if_pos hP]
        have hw0 : w0 = pat.take w0.length :=
          ((append_singleton_eq_take_succ pat w0 c).mp hP).1
        have hfull : commonPrefixLen w0 pat = w0.length :=
          (commonPrefixLen_eq_length_iff w0 pat).mpr hw0
        rw [hmm, hfull]
        omega
      · rw [if_pos (hcondIff.mpr hP), if_neg hP, hmm]
        omega
    have hih := ih (w0 ++ [c]) (((r <<< 1) ||| 1) &&& maskOf pat c)
      ((if (((r <<< 1) ||| 1) &&& maskOf pat c) &&& (1 <<< w0.length) = 0
        then mm + 1 else mm))
      (fun d hd => hlt d (List.mem_cons_of_mem c hd))
      (Or.inr (by
        rw [List.length_append, List.length_singleton, Nat.add_sub_cancel]
        exact hbit))
      hmm1
    rw [List.length_append, List.length_singleton] at hih
    rw [List.append_assoc, List.singleton_append] at hih
    exact hih

theorem runWindow_prefixMismatches (pat w : List Nat)
    (hw : ∀ c ∈ w, c < 1024) :
    runWindow (maskOf pat) w 0 0 0 = some (prefixMismatches pat w) := by
  have h := runWindow_go pat w [] 0 0 hw (Or.inl rfl)
    (by simp [commonPrefixLen_nil])
  rw [List.nil_append] at h
  exact h

theorem bitapScan_eq_spec (pat : List Nat) (maxM : Nat) (ltext : List Nat)
    (hlt : ∀ c ∈ ltext, c < 1024) :
    ∀ idxs : List Nat,
      bitapScan pat maxM ltext idxs = some (bitapSpecScan pat maxM ltext idxs) := by
  intro idxs
  induction idxs with
  | nil => rfl
  | cons i rest ih =>
    have hwin : ∀ c ∈ (ltext.drop i).take pat.length, c < 1024 := fun c hc =>
      hlt c ((List.drop_sublist i ltext).mem ((List.take_sublist _ _).mem hc))
    simp only [bitapScan, bitapSpecScan,
      runWindow_prefixMismatches pat _ hwin]
    by_cases h : prefixMismatches pat ((ltext.drop i).take pat.length) ≤ maxM
    · rw [if_pos h, if_pos h]
    · rw [if_neg h, if_neg h, ih]

theorem bitapSpecScan_cons (pat : List Nat) (maxM : Nat) (ltext : List Nat)
    (i : Nat) (rest : List Nat) :
    bitapSpecScan pat maxM ltext (i :: rest) =
      if prefixMismatches pat ((ltext.drop i).take pat.length) ≤ maxM
      then some (1 -
        (prefixMismatches pat ((ltext.drop i).take pat.length) : ℚ) /
        (pat.length : ℚ))
      else bitapSpecScan pat maxM ltext rest := rfl

/-- C3 counterexample.  The lowercased text "aab" contains the
lowercased pattern "ab" exactly, yet `get_score` returns 1/2, not 1.0:
the scan stops at the first offset within tolerance (offset 0, window
"aa"), and its mismatch count is prefix-based.  Moreover on text "xb"
(Hamming distance 1 from "ab", so the claim's formula demands
1 − 1/2 = 1/2 and a score in (0, 1]) the code counts both positions as
mismatches and returns exactly 0. -/
theorem C3_bitap_counterexample :
    List.IsInfix (strLower [97, 98]) (strLower [97, 97, 98]) ∧
    bitapGetScore [97, 98] 2 [97, 97, 98] = some (some (1 / 2)) ∧
    ((1 : ℚ) / 2) ≠ 1 ∧
    bitapGetScore [97, 98] 2 [120, 98] = some (some 0) := by
  have h1 : bitapGetScore [97, 98] 2 [97, 97, 98] =
      some (bitapSpecScore [97, 98] 2 [97, 97, 98]) :=
    bitapScan_eq_spec [97, 98] 2 (strLower [97, 97, 98]) (by decide)
      (List.range ((strLower [97, 97, 98]).length - [97, 98].length + 1))
  have h2 : bitapSpecScore [97, 98] 2 [97, 97, 98] = some (1 / 2) := by
    show bitapSpecScan [97, 98] 2 (strLower [97, 97, 98])
      (List.range ((strLower [97, 97, 98]).length - [97, 98].length + 1)) =
      some (1 / 2)
    rw [show List.range ((strLower [97, 97, 98]).length -
        ([97, 98] : List Nat).length + 1) = [0, 1] from by decide,
      bitapSpecScan_cons,
      show prefixMismatches [97, 98] (((strLower [97, 97, 98]).drop 0).take
        ([97, 98] : List Nat).length) = 1 from by decide,
      if_pos (by norm_num)]
    simp only [List.length_cons, List.length_nil]
    norm_num
  have h3 : bitapGetScore [97, 98] 2 [120, 98] =
      some (bitapSpecScore [97, 98] 2 [120, 98]) :=
    bitapScan_eq_spec [97, 98] 2 (strLower [120, 98]) (by decide)
      (List.range ((strLower [120, 98]).length - [97, 98].length + 1))
  have h4 : bitapSpecScore [97, 98] 2 [120, 98] = some 0 := by
    show bitapSpecScan [97, 98] 2 (strLower [120, 98])
      (List.range ((strLower [120, 98]).length - [97, 98].length + 1)) =
      some 0
    rw [show List.range ((strLower [120, 98]).length -
        ([97, 98] : List Nat).length + 1) = [0] from by decide,
      bitapSpecScan_cons,
      show prefixMismatches [97, 98] (((strLower [120, 98]).drop 0).take
        ([97, 98] : List Nat).length) = 2 from by decide,
      if_pos (by norm_num)]
    simp only [List.length_cons, List.length_nil]
    norm_num
  exact ⟨⟨[97], [], rfl⟩, by rw [h1, h2], by norm_num, by rw [h3, h4]⟩

/-- C3 amended: for a pattern of 1 to 32 characters over the mask
table's range, on a text whose lowercased characters stay below 1024
(no mask panic), `get_score` scans start offsets left to right over
windows of `pattern_len` characters (the whole remaining text when it
is shorter than the pattern); the mismatch count of a window is its
length minus the longest common prefix with the pattern — not the
Hamming distance; the first offset whose count is within
`max_mismatches` yields `1 − count/pattern_len` (1.0 exactly when the
window starts with the whole pattern, and possibly 0), and the result
is absent exactly when every offset fails the bound. -/
theorem C3_bitap_prefix_score (pat text : List Nat) (maxM : Nat)
    (h1 : 1 ≤ pat.length) (h2 : pat.length ≤ 32)
    (hp : ∀ c ∈ pat, c < 1024) (ht : ∀ c ∈ strLower text, c < 1024) :
    bitapGetScore pat maxM text = some (bitapSpecScore pat maxM text) :=
  bitapScan_eq_spec pat maxM (strLower text) ht
    (List.range ((strLower text).length - pat.length + 1))

/-- C3 witness: the amended theorem evaluated on pattern "ab", text
"cab", `max_mismatches = 1` (the reference scan finds the exact match
at offset 1). -/
theorem C3_bitap_prefix_score_witness :
    bitapGetScore [97, 98] 1 [99, 97, 98] =
      some (bitapSpecScore [97, 98] 1 [99, 97, 98]) :=
  C3_bitap_prefix_score [97, 98] [99, 97, 98] 1 (by decide) (by decide)
    (by decide) (by decide)

/-- C10 witness: the theorem evaluated on a two-character ASCII query
against the default empty engine with `ngram_size = 3`. -/
theorem C10_short_query_witness :
    searchFn textsSelf engEmpty [104, 105] = some [] :=
  C10_short_query_no_candidates textsSelf engEmpty [104, 105]
    (by decide) (by decide) (by decide) (by decide) (by decide)

/-!  ### C5: search result properties -/

theorem insertByScore_perm {T : Type} (x : Nat × T × ℚ) :
    ∀ l : List (Nat × T × ℚ), List.Perm (insertByScore x l) (x :: l) := by
  intro l
  induction l with
  | nil => exact List.Perm.refl _
  | cons y ys ih =>
    unfold insertByScore
    by_cases h : y.2.2 ≤ x.2.2
    · rw [if_pos h]
    · rw [if_neg h]
      exact List.Perm.trans (List.Perm.cons y ih) (List.Perm.swap x y ys)

theorem sortByScore_perm {T : Type} :
    ∀ l : List (Nat × T × ℚ), List.Perm (sortByScore l) l := by
  intro l
  induction l with
  | nil => exact List.Perm.refl _
  | cons x xs ih =>
    unfold sortByScore
    exact List.Perm.trans (insertByScore_perm x (sortByScore xs))
      (List.Perm.cons x ih)

theorem insertByScore_sorted {T : Type} (x : Nat × T × ℚ) :
    ∀ l : List (Nat × T × ℚ),
      List.Pairwise (fun a b => b.2.2 ≤ a.2.2) l →
      List.Pairwise (fun a b => b.2.2 ≤ a.2.2) (insertByScore x l) := by
  intro l
  induction l with
  | nil => intro _; simp [insertByScore]
  | cons y ys ih =>
    intro h
    rw [List.pairwise_cons] at h
    unfold insertByScore
    by_cases hc : y.2.2 ≤ x.2.2
    · rw [if_pos hc]
      refine List.pairwise_cons.mpr ⟨?_, List.pairwise_cons.mpr h⟩
      intro b hb
      rcases List.mem_cons.mp hb with rfl | hb2
      · exact hc
      · exact le_trans (h.1 b hb2) hc
    · rw [if_neg hc]
      refine List.pairwise_cons.mpr ⟨?_, ih h.2⟩
      intro b hb
      have hb2 := (insertByScore_perm x ys).mem_iff.mp hb
      rcases List.mem_cons.mp hb2 with rfl | hb3
      · exact le_of_lt (lt_of_not_le hc)
      · exact h.1 b hb3

theorem sortByScore_sorted {T : Type} :
    ∀ l : List (Nat × T × ℚ),
      List.Pairwise (fun a b => b.2.2 ≤ a.2.2) (sortByScore l) := by
  intro l
  induction l with
  | nil => simp [sortByScore]
  | cons x xs ih =>
    unfold sortByScore
    exact insertByScore_sorted x (sortByScore xs) ih

theorem scoreCandidates_props {T : Type} (texts : T → List (List Nat))
    (entries : List T) (pat : List Nat) (maxM : Nat) :
    ∀ (ids : List Nat) (rs : List (Nat × T × ℚ)),
      scoreCandidates texts entries pat maxM ids = some rs →
      (∀ x ∈ rs, x.2.1 ∈ entries) ∧
      List.Sublist (rs.map (fun x => x.1)) ids := by
  intro ids
  induction ids with
  | nil =>
    intro rs h
    have hrs : rs = [] := by
      have h2 := h.symm
      injection h2
    subst hrs
    exact ⟨fun x hx => absurd hx (List.not_mem_nil x), by simp⟩
  | cons id rest ih =>
    intro rs h
    unfold scoreCandidates at h
    obtain ⟨e, hge, h⟩ := Option.bind_eq_some.mp h
    obtain ⟨sc, hsc, h⟩ := Option.bind_eq_some.mp h
    obtain ⟨tail, htail, h⟩ := Option.bind_eq_some.mp h
    obtain ⟨hmem, hsub⟩ := ih tail htail
    cases sc with
    | some s =>
      have hrs : (id, e, s) :: tail = rs := by injection h
      subst hrs
      constructor
      · intro x hx
        rcases List.mem_cons.mp hx with rfl | hx2
        · exact List.get?_mem hge
        · exact hmem x hx2
      · rw [List.map_cons]
        exact hsub.cons₂ id
    | none =>
      have hrs : tail = rs := by injection h
      subst hrs
      exact ⟨hmem, hsub.cons id⟩

theorem searchBody_props {T : Type} (texts : T → List (List Nat))
    (E : SearchEngineSt T) (q : List Nat) (rs : List (Nat × T × ℚ))
    (h : searchBody texts E q = some rs) :
    List.Pairwise (fun a b => b.2.2 ≤ a.2.2) rs ∧
    (∀ x ∈ rs, x.2.1 ∈ E.entries) ∧
    (rs.map (fun x => x.1)).Nodup := by
  unfold searchBody at h
  by_cases hall : (strLower q).all (fun c => decide (c < 1024))
  · rw [if_pos hall] at h
    cases hg : generateNgrams E.indexer.n (strLower q) with
    | none => rw [hg] at h; cases h
    | some gs =>
      rw [hg] at h
      obtain ⟨rs0, hrs0, hsort⟩ := Option.map_eq_some'.mp h
      subst hsort
      obtain ⟨hmem0, hsub0⟩ := scoreCandidates_props texts E.entries
        (strLower q) E.maxBitapMismatches _ rs0 hrs0
      have hperm : List.Perm (sortByScore rs0) rs0 := sortByScore_perm rs0
      refine ⟨sortByScore_sorted rs0, ?_, ?_⟩
      · intro x hx
        exact hmem0 x (hperm.mem_iff.mp hx)
      · have hnd0 : (rs0.map (fun x => x.1)).Nodup :=
          (List.nodup_dedup _).sublist hsub0
        exact ((hperm.map (fun x => x.1)).nodup_iff).mpr hnd0
  · rw [if_neg hall] at h
    cases h

/-- C5: whenever `search` returns without panicking, its result list is
sorted by non-increasing score, every returned entry is an entry of the
engine's snapshot, and (past the length gate) the results arise from a
duplicate-free list of candidate ids — at most one result per
candidate id. -/
theorem C5_search_results {T : Type} (texts : T → List (List Nat))
    (E : SearchEngineSt T) (q : List Nat) (res : List (T × ℚ))
    (h : searchFn texts E q = some res) :
    List.Pairwise (fun a b => b.2 ≤ a.2) res ∧
    (∀ r ∈ res, r.1 ∈ E.entries) ∧
    (queryRejected q = false →
      ∃ rs, searchBody texts E q = some rs ∧ res = rs.map (fun x => x.2) ∧
        (rs.map (fun x => x.1)).Nodup) := by
  unfold searchFn at h
  by_cases hrej : queryRejected q = true
  · rw [if_pos hrej] at h
    have hres : [] = res := by injection h
    subst hres
    refine ⟨List.Pairwise.nil, ?_, ?_⟩
    · intro r hr
      cases hr
    · intro hfalse
      rw [hfalse] at hrej
      cases hrej
  · rw [if_neg hrej] at h
    obtain ⟨rs, hrs, hres⟩ := Option.map_eq_some'.mp h
    subst hres
    obtain ⟨hsort, hmem, hnodup⟩ := searchBody_props texts E q rs hrs
    refine ⟨?_, ?_, fun _ => ⟨rs, hrs, rfl, hnodup⟩⟩
    · rw [List.pairwise_map]
      exact hsort
    · intro r hr
      obtain ⟨x, hx, hxr⟩ := List.mem_map.mp hr
      rw [← hxr]
      exact hmem x hx

/-- The engine built from the one-entry snapshot ["abc"] with the
default configuration. -/
def engAbc : SearchEngineSt (List Nat) :=
  (mkEngine textsSelf [[97, 98, 99]] 3 2).getD engEmpty

/-- The result of searching "abc" on `engAbc`. -/
def resAbc : List (List Nat × ℚ) :=
  (searchFn textsSelf engAbc [97, 98, 99]).getD []

/-- C5 witness: the theorem evaluated on the concrete engine `engAbc`
and the query "abc", whose search succeeds. -/
theorem C5_search_results_witness :
    List.Pairwise (fun a b => b.2 ≤ a.2) resAbc ∧
    (∀ r ∈ resAbc, r.1 ∈ engAbc.entries) ∧
    (queryRejected [97, 98, 99] = false →
      ∃ rs, searchBody textsSelf engAbc [97, 98, 99] = some rs ∧
        resAbc = rs.map (fun x => x.2) ∧ (rs.map (fun x => x.1)).Nodup) :=
  C5_search_results textsSelf engAbc [97, 98, 99] resAbc rfl

/-!  ### Storage-level lemmas for the table invariant -/

theorem storagePush_apply {K T : Type} [DecidableEq K] (e : T) :
    ∀ (keys : List K) (s : K → List T) (k : K),
      storagePush s keys e k = s k ++ List.replicate (keys.count k) e := by
  intro keys
  induction keys with
  | nil => intro s k; simp [storagePush]
  | cons k0 rest ih =>
    intro s k
    show storagePush (fun k2 => if k2 = k0 then s k2 ++ [e] else s k2) rest e k =
      s k ++ List.replicate ((k0 :: rest).count k) e
    rw [ih, List.count_cons]
    by_cases hk : k = k0
    · rw [if_pos hk, if_pos (by simp [hk]), List.append_assoc,
        List.singleton_append, ← List.replicate_succ]
    · rw [if_neg hk, if_neg (by simp [Ne.symm hk]), Nat.add_zero]

theorem storageForget_apply {K T : Type} [DecidableEq K]
    (getId : T → String) (e : T) :
    ∀ (keys : List K) (s : K → List T) (k : K),
      storageForget getId s keys e k =
        (removeFirstBy getId (getId e))^[keys.count k] (s k) := by
  intro keys
  induction keys with
  | nil => intro s k; simp [storageForget]
  | cons k0 rest ih =>
    intro s k
    show storageForget getId
        (fun k2 => if k2 = k0 then removeFirstBy getId (getId e) (s k2) else s k2)
        rest e k = _
    rw [ih, List.count_cons]
    by_cases hk : k = k0
    · rw [if_pos hk, if_pos (by simp [hk])]
      rw [← Function.iterate_succ_apply]
    · rw [if_neg hk, if_neg (by simp [Ne.symm hk]), Nat.add_zero]

theorem removeFirstBy_filter_self {T : Type} (getId : T → String) (id : String) :
    ∀ l : List T,
      (removeFirstBy getId id l).filter (fun x => decide (getId x = id)) =
        (l.filter (fun x => decide (getId x = id))).tail := by
  intro l
  induction l with
  | nil => rfl
  | cons x xs ih =>
    unfold removeFirstBy
    by_cases hx : getId x = id
    · rw [if_pos hx, List.filter_cons_of_pos (by simp [hx]), List.tail_cons]
    · rw [if_neg hx, List.filter_cons_of_neg (by simp [hx]),
        List.filter_cons_of_neg (by simp [hx]), ih]

theorem removeFirstBy_filter_ne {T : Type} (getId : T → String)
    (id id2 : String) (hne : id2 ≠ id) :
    ∀ l : List T,
      (removeFirstBy getId id l).filter (fun x => decide (getId x = id2)) =
        l.filter (fun x => decide (getId x = id2)) := by
  intro l
  induction l with
  | nil => rfl
  | cons x xs ih =>
    unfold removeFirstBy
    by_cases hx : getId x = id
    · rw [if_pos hx, List.filter_cons_of_neg (by simp [hx, Ne.symm hne])]
    · rw [if_neg hx]
      by_cases hx2 : getId x = id2
      · rw [List.filter_cons_of_pos (by simp [hx2]),
          List.filter_cons_of_pos (by simp [hx2]), ih]
      · rw [List.filter_cons_of_neg (by simp [hx2]),
          List.filter_cons_of_neg (by simp [hx2]), ih]

theorem iterate_removeFirstBy_filter_self {T : Type} (getId : T → String)
    (id : String) :
    ∀ (n : Nat) (l : List T),
      ((removeFirstBy getId id)^[n] l).filter (fun x => decide (getId x = id)) =
        (l.filter (fun x => decide (getId x = id))).drop n := by
  intro n
  induction n with
  | zero => intro l; simp
  | succ m ih =>
    intro l
    rw [Function.iterate_succ_apply, ih, removeFirstBy_filter_self,
      ← List.drop_one, List.drop_drop, Nat.add_comm]

theorem iterate_removeFirstBy_filter_ne {T : Type} (getId : T → String)
    (id id2 : String) (hne : id2 ≠ id) :
    ∀ (n : Nat) (l : List T),
      ((removeFirstBy getId id)^[n] l).filter (fun x => decide (getId x = id2)) =
        l.filter (fun x => decide (getId x = id2)) := by
  intro n
  induction n with
  | zero => intro l; simp
  | succ m ih =>
    intro l
    rw [Function.iterate_succ_apply, ih, removeFirstBy_filter_ne getId id id2 hne]

theorem filter_append_replicate {T : Type} (p : T → Bool) (l : List T)
    (n : Nat) (e : T) :
    (l ++ List.replicate n e).filter p =
      l.filter p ++ (if p e then List.replicate n e else []) := by
  rw [List.filter_append, List.filter_replicate]

/-!  ### Primary-map lemmas -/

theorem entLookup_store_self {T : Type} (id : String) (e : T) :
    ∀ l : List (String × T), entLookup id (entStore id e l) = some e := by
  intro l
  induction l with
  | nil => simp [entStore, entLookup]
  | cons p ps ih =>
    unfold entStore
    by_cases hp : p.1 = id
    · rw [if_pos hp]
      simp [entLookup]
    · rw [if_neg hp]
      unfold entLookup
      rw [if_neg hp]
      exact ih

theorem entLookup_store_ne {T : Type} (id id2 : String) (hne : id2 ≠ id)
    (e : T) : ∀ l : List (String × T),
      entLookup id2 (entStore id e l) = entLookup id2 l := by
  intro l
  induction l with
  | nil => simp [entStore, entLookup, Ne.symm hne]
  | cons p ps ih =>
    unfold entStore
    by_cases hp : p.1 = id
    · rw [if_pos hp]
      unfold entLookup
      rw [if_neg (by simp [Ne.symm hne]), if_neg (by rw [hp]; exact Ne.symm hne)]
    · rw [if_neg hp]
      unfold entLookup
      by_cases hp2 : p.1 = id2
      · rw [if_pos hp2, if_pos hp2]
      · rw [if_neg hp2, if_neg hp2]
        exact ih

theorem entLookup_erase_ne {T : Type} (id id2 : String) (hne : id2 ≠ id) :
    ∀ l : List (String × T), entLookup id2 (entErase id l) = entLookup id2 l := by
  intro l
  induction l with
  | nil => rfl
  | cons p ps ih =>
    unfold entErase
    by_cases hp : p.1 = id
    · rw [if_pos hp]
      rw [show entLookup id2 (p :: ps) =
        if p.1 = id2 then some p.2 else entLookup id2 ps from rfl]
      rw [if_neg (by rw [hp]; exact Ne.symm hne)]
    · rw [if_neg hp]
      unfold entLookup
      by_cases hp2 : p.1 = id2
      · rw [if_pos hp2, if_pos hp2]
      · rw [if_neg hp2, if_neg hp2]
        exact ih

theorem entErase_sublist {T : Type} (id : String) :
    ∀ l : List (String × T), List.Sublist (entErase id l) l := by
  intro l
  induction l with
  | nil => exact List.Sublist.refl []
  | cons p ps ih =>
    unfold entErase
    by_cases hp : p.1 = id
    · rw [if_pos hp]
      exact (List.Sublist.refl ps).cons p
    · rw [if_neg hp]
      exact ih.cons₂ p

theorem entLookup_eq_none_of_not_mem {T : Type} (id : String) :
    ∀ l : List (String × T), id ∉ l.map Prod.fst → entLookup id l = none := by
  intro l
  induction l with
  | nil => intro _; rfl
  | cons p ps ih =>
    intro h
    rw [List.map_cons, List.mem_cons] at h
    push_neg at h
    unfold entLookup
    rw [if_neg (fun hc => h.1 hc.symm)]
    exact ih h.2

theorem entLookup_mem {T : Type} (id : String) (e : T) :
    ∀ l : List (String × T), entLookup id l = some e → (id, e) ∈ l := by
  intro l
  induction l with
  | nil => intro h; cases h
  | cons p ps ih =>
    intro h
    unfold entLookup at h
    by_cases hp : p.1 = id
    · rw [if_pos hp] at h
      have he : p.2 = e := by injection h
      exact List.mem_cons.mpr (Or.inl (by rw [← hp, ← he]))
    · rw [if_neg hp] at h
      exact List.mem_cons_of_mem p (ih h)

theorem entLookup_of_mem_nodup {T : Type} (id : String) (e : T) :
    ∀ l : List (String × T), (l.map Prod.fst).Nodup → (id, e) ∈ l →
      entLookup id l = some e := by
  intro l
  induction l with
  | nil => intro _ h; cases h
  | cons p ps ih =>
    intro hnd hmem
    rw [List.map_cons, List.nodup_cons] at hnd
    unfold entLookup
    rcases List.mem_cons.mp hmem with rfl | hmem2
    · rw [if_pos rfl]
    · by_cases hp : p.1 = id
      · exfalso
        apply hnd.1
        rw [hp]
        exact List.mem_map.mpr ⟨(id, e), hmem2, rfl⟩
      · rw [if_neg hp]
        exact ih hnd.2 hmem2

theorem entLookup_erase_self_of_nodup {T : Type} (id : String) :
    ∀ l : List (String × T), (l.map Prod.fst).Nodup →
      entLookup id (entErase id l) = none := by
  intro l
  induction l with
  | nil => intro _; rfl
  | cons p ps ih =>
    intro hnd
    rw [List.map_cons, List.nodup_cons] at hnd
    unfold entErase
    by_cases hp : p.1 = id
    · rw [if_pos hp]
      apply entLookup_eq_none_of_not_mem
      rw [← hp]
      exact hnd.1
    · rw [if_neg hp]
      unfold entLookup
      rw [if_neg hp]
      exact ih hnd.2

theorem entErase_of_lookup_none {T : Type} (id : String) :
    ∀ l : List (String × T), entLookup id l = none → entErase id l = l := by
  intro l
  induction l with
  | nil => intro _; rfl
  | cons p ps ih =>
    intro h
    unfold entLookup at h
    by_cases hp : p.1 = id
    · rw [if_pos hp] at h
      cases h
    · rw [if_neg hp] at h
      unfold entErase
      rw [if_neg hp, ih h]

theorem entStore_of_lookup_none {T : Type} (id : String) (e : T) :
    ∀ l : List (String × T), entLookup id l = none →
      entStore id e l = l ++ [(id, e)] := by
  intro l
  induction l with
  | nil => intro _; rfl
  | cons p ps ih =>
    intro h
    unfold entLookup at h
    by_cases hp : p.1 = id
    · rw [if_pos hp] at h
      cases h
    · rw [if_neg hp] at h
      unfold entStore
      rw [if_neg hp, ih h, List.cons_append]

theorem entStore_map_fst_of_lookup_some {T : Type} (id : String) (e e0 : T) :
    ∀ l : List (String × T), entLookup id l = some e0 →
      (entStore id e l).map Prod.fst = l.map Prod.fst := by
  intro l
  induction l with
  | nil => intro h; cases h
  | cons p ps ih =>
    intro h
    unfold entLookup at h
    unfold entStore
    by_cases hp : p.1 = id
    · rw [if_pos hp, List.map_cons, List.map_cons, hp]
    · rw [if_neg hp] at h
      rw [if_neg hp, List.map_cons, List.map_cons, ih h]

theorem mem_entStore {T : Type} (id : String) (e : T) :
    ∀ (l : List (String × T)) (p : String × T), p ∈ entStore id e l →
      p = (id, e) ∨ p ∈ l := by
  intro l
  induction l with
  | nil =>
    intro p hp
    rcases List.mem_singleton.mp hp with rfl
    exact Or.inl rfl
  | cons q qs ih =>
    intro p hp
    unfold entStore at hp
    by_cases hq : q.1 = id
    · rw [if_pos hq] at hp
      rcases List.mem_cons.mp hp with rfl | hp2
      · exact Or.inl rfl
      · exact Or.inr (List.mem_cons_of_mem _ hp2)
    · rw [if_neg hq] at hp
      rcases List.mem_cons.mp hp with rfl | hp2
      · exact Or.inr (List.mem_cons_self _ _)
      · rcases ih p hp2 with h | h
        · exact Or.inl h
        · exact Or.inr (List.mem_cons_of_mem _ h)

theorem entLookup_isSome_of_mem_keys {T : Type} (id : String) :
    ∀ l : List (String × T), id ∈ l.map Prod.fst →
      entLookup id l ≠ none := by
  intro l
  induction l with
  | nil => intro h; cases h
  | cons p ps ih =>
    intro h
    rw [List.map_cons, List.mem_cons] at h
    unfold entLookup
    by_cases hp : p.1 = id
    · rw [if_pos hp]
      exact fun hc => Option.noConfusion hc
    · rw [if_neg hp]
      rcases h with h | h
      · exact absurd h.symm hp
      · exact ih h

/-!  ### The index synchronization invariant -/

/-- Every stored pair is keyed by its entity's own id. -/
def wellKeyed {T : Type} (getId : T → String) (l : List (String × T)) : Prop :=
  ∀ p ∈ l, getId p.2 = p.1

/-- The per-indexer invariant: for every key and every id, the entries
of that id sitting under the key are exactly `count` copies of the
entity stored at that id, where `count` is how many times the
generator of that entity produces the key. -/
def idxInv {K T : Type} [DecidableEq K] (getId : T → String)
    (ents : List (String × T)) (ix : IdxState K T) : Prop :=
  ∀ (k : K) (id : String),
    (ix.storage k).filter (fun x => decide (getId x = id)) =
      match entLookup id ents with
      | some e => List.replicate ((ix.gen e).count k) e
      | none => []

/-- The whole-table invariant. -/
def tableInv {K T : Type} [DecidableEq K] (getId : T → String)
    (tbl : TableSt K T) : Prop :=
  wellKeyed getId tbl.entities ∧ (tbl.entities.map Prod.fst).Nodup ∧
  ∀ q ∈ tbl.indices, idxInv getId tbl.entities q.2

theorem idxInv_insert {K T : Type} [DecidableEq K] (getId : T → String)
    (ents : List (String × T)) (ix : IdxState K T) (e : T)
    (hfresh : entLookup (getId e) ents = none)
    (hinv : idxInv getId ents ix) :
    idxInv getId (entStore (getId e) e ents) (idxIndex ix e) := by
  intro k id
  show (storagePush ix.storage (ix.gen e) e k).filter
      (fun x => decide (getId x = id)) = _
  rw [storagePush_apply, filter_append_replicate, hinv k id]
  by_cases hid : getId e = id
  · rw [if_pos (by simp [hid]), ← hid, hfresh, entLookup_store_self]
    rfl
  · rw [if_neg (by simp [hid]), List.append_nil,
      entLookup_store_ne _ _ (fun hc => hid hc.symm)]
    rfl

theorem idxInv_update {K T : Type} [DecidableEq K] (getId : T → String)
    (ents : List (String × T)) (ix : IdxState K T) (e old : T)
    (hold : entLookup (getId e) ents = some old)
    (hwk : wellKeyed getId ents)
    (hinv : idxInv getId ents ix) :
    idxInv getId (entStore (getId e) e ents)
      (idxIndex (idxForget getId ix old) e) := by
  have hgold : getId old = getId e := hwk _ (entLookup_mem _ _ _ hold)
  intro k id
  show (storagePush (storageForget getId ix.storage (ix.gen old) old)
      (ix.gen e) e k).filter (fun x => decide (getId x = id)) = _
  rw [storagePush_apply, filter_append_replicate, storageForget_apply, hgold]
  by_cases hid : getId e = id
  · have hold2 : entLookup id ents = some old := hid ▸ hold
    rw [if_pos (by simp [hid]), hid, iterate_removeFirstBy_filter_self,
      hinv k id, hold2, entLookup_store_self]
    simp
    rfl
  · have hstore : entLookup id (entStore (getId e) e ents) = entLookup id ents :=
      entLookup_store_ne (getId e) id (fun hc => hid hc.symm) e ents
    rw [if_neg (by simp [hid]), List.append_nil,
      iterate_removeFirstBy_filter_ne getId (getId e) id (fun hc => hid hc.symm),
      hinv k id, hstore]
    rfl

theorem idxInv_delete {K T : Type} [DecidableEq K] (getId : T → String)
    (ents : List (String × T)) (ix : IdxState K T) (id : String) (old : T)
    (hold : entLookup id ents = some old)
    (hwk : wellKeyed getId ents)
    (hnd : (ents.map Prod.fst).Nodup)
    (hinv : idxInv getId ents ix) :
    idxInv getId (entErase id ents) (idxForget getId ix old) := by
  have hgold : getId old = id := hwk _ (entLookup_mem _ _ _ hold)
  intro k id2
  show (storageForget getId ix.storage (ix.gen old) old k).filter
      (fun x => decide (getId x = id2)) = _
  rw [storageForget_apply]
  by_cases hid : id2 = id
  · subst hid
    rw [hgold, iterate_removeFirstBy_filter_self, hinv k id2, hold,
      entLookup_erase_self_of_nodup _ _ hnd]
    simp
  · rw [iterate_removeFirstBy_filter_ne getId (getId old) id2
      (fun hc => hid (hgold ▸ hc)),
      hinv k id2, entLookup_erase_ne _ _ hid]
    rfl

theorem backfill_filter {K T : Type} [DecidableEq K] (getId : T → String)
    (gen : T → List K) :
    ∀ (l : List (String × T)) (s : K → List T),
      wellKeyed getId l → (l.map Prod.fst).Nodup →
      ∀ (k : K) (id : String),
        ((l.foldl (fun ix p => idxIndex ix p.2)
          { gen := gen, storage := s } : IdxState K T).storage k).filter
            (fun x => decide (getId x = id)) =
          (s k).filter (fun x => decide (getId x = id)) ++
          (match entLookup id l with
           | some e => List.replicate ((gen e).count k) e
           | none => []) := by
  intro l
  induction l with
  | nil =>
    intro s _ _ k id
    simp [entLookup]
  | cons p ps ih =>
    intro s hwk hnd k id
    rw [List.foldl_cons]
    have hstep : idxIndex ({ gen := gen, storage := s } : IdxState K T) p.2 =
        { gen := gen, storage := storagePush s (gen p.2) p.2 } := rfl
    rw [hstep]
    have hwk2 : wellKeyed getId ps := fun q hq => hwk q (List.mem_cons_of_mem p hq)
    rw [List.map_cons, List.nodup_cons] at hnd
    have hgp : getId p.2 = p.1 := hwk p (List.mem_cons_self p ps)
    rw [ih (storagePush s (gen p.2) p.2) hwk2 hnd.2 k id,
      storagePush_apply, filter_append_replicate]
    by_cases hid : p.1 = id
    · subst hid
      rw [show entLookup p.1 (p :: ps) = some p.2 from by
          rw [show entLookup p.1 (p :: ps) =
            if p.1 = p.1 then some p.2 else entLookup p.1 ps from rfl,
            if_pos rfl],
        entLookup_eq_none_of_not_mem _ _ hnd.1,
        if_pos (by simp [hgp])]
      simp
    · rw [show entLookup id (p :: ps) = entLookup id ps from by
          rw [show entLookup id (p :: ps) =
            if p.1 = id then some p.2 else entLookup id ps from rfl,
            if_neg hid],
        if_neg (by simp [hgp, hid]), List.append_nil]

theorem tableInv_empty {K T : Type} [DecidableEq K] (getId : T → String) :
    tableInv getId (TableSt.empty : TableSt K T) := by
  refine ⟨?_, ?_, ?_⟩
  · intro p hp
    cases hp
  · exact List.nodup_nil
  · intro q hq
    cases hq

theorem backfill_gen {K T : Type} [DecidableEq K] (gen : T → List K) :
    ∀ (l : List (String × T)) (s : K → List T),
      ((l.foldl (fun ix p => idxIndex ix p.2)
        { gen := gen, storage := s }) : IdxState K T).gen = gen := by
  intro l
  induction l with
  | nil => intro s; rfl
  | cons p ps ih =>
    intro s
    rw [List.foldl_cons]
    exact ih _

theorem tableInv_step {K T : Type} [DecidableEq K] (getId : T → String)
    (tbl : TableSt K T) (op : TableOp K T) (h : tableInv getId tbl) :
    tableInv getId (stepOp getId tbl op) := by
  obtain ⟨hwk, hnd, hidx⟩ := h
  cases op with
  | ins e =>
    show tableInv getId (tableInsert getId tbl e).1
    unfold tableInsert
    by_cases hc : (entLookup (getId e) tbl.entities).isSome = true
    · rw [if_pos hc]
      exact ⟨hwk, hnd, hidx⟩
    · rw [if_neg hc]
      have hfresh : entLookup (getId e) tbl.entities = none :=
        Option.not_isSome_iff_eq_none.mp hc
      refine ⟨?_, ?_, ?_⟩
      · intro p hp
        rcases mem_entStore _ _ _ p hp with rfl | hp2
        · rfl
        · exact hwk p hp2
      · rw [entStore_of_lookup_none _ _ _ hfresh, List.map_append]
        rw [List.nodup_append]
        refine ⟨hnd, List.nodup_singleton _, ?_⟩
        intro a ha hb
        rw [List.map_cons, List.map_nil, List.mem_singleton] at hb
        subst hb
        exact entLookup_isSome_of_mem_keys _ _ ha hfresh
      · intro q hq
        obtain ⟨p0, hp0, hq0⟩ := List.mem_map.mp hq
        rw [← hq0]
        exact idxInv_insert getId tbl.entities p0.2 e hfresh (hidx p0 hp0)
  | upd e =>
    show tableInv getId (tableUpdate getId tbl e).1
    unfold tableUpdate
    cases hl : entLookup (getId e) tbl.entities with
    | none => exact ⟨hwk, hnd, hidx⟩
    | some old =>
      refine ⟨?_, ?_, ?_⟩
      · intro p hp
        rcases mem_entStore _ _ _ p hp with rfl | hp2
        · rfl
        · exact hwk p hp2
      · rw [entStore_map_fst_of_lookup_some _ _ old _ hl]
        exact hnd
      · intro q hq
        obtain ⟨p0, hp0, hq0⟩ := List.mem_map.mp hq
        rw [← hq0]
        exact idxInv_update getId tbl.entities p0.2 e old hl hwk (hidx p0 hp0)
  | del id =>
    show tableInv getId (tableDelete getId tbl id).1
    unfold tableDelete
    cases hl : entLookup id tbl.entities with
    | none =>
      refine ⟨?_, ?_, ?_⟩
      · intro p hp
        exact hwk p ((entErase_sublist id tbl.entities).mem hp)
      · exact hnd.sublist ((entErase_sublist id tbl.entities).map Prod.fst)
      · intro q hq
        rw [entErase_of_lookup_none _ _ hl]
        exact hidx q hq
    | some old =>
      refine ⟨?_, ?_, ?_⟩
      · intro p hp
        exact hwk p ((entErase_sublist id tbl.entities).mem hp)
      · exact hnd.sublist ((entErase_sublist id tbl.entities).map Prod.fst)
      · intro q hq
        obtain ⟨p0, hp0, hq0⟩ := List.mem_map.mp hq
        rw [← hq0]
        exact idxInv_delete getId tbl.entities p0.2 id old hl hwk hnd (hidx p0 hp0)
  | addIdx tid gen =>
    show tableInv getId (tableAddIndex tbl tid gen)
    unfold tableAddIndex
    by_cases hc : (tbl.indices.find? (fun p => p.1 == tid)).isSome = true
    · rw [if_pos hc]
      exact ⟨hwk, hnd, hidx⟩
    · rw [if_neg hc]
      refine ⟨hwk, hnd, ?_⟩
      intro q hq
      rcases List.mem_append.mp hq with hq2 | hq2
      · exact hidx q hq2
      · rw [List.mem_singleton] at hq2
        subst hq2
        intro k id
        have hb := backfill_filter getId gen tbl.entities (fun _ => []) hwk hnd k id
        have hgen : ((tbl.entities.foldl (fun ix p => idxIndex ix p.2)
            { gen := gen, storage := fun _ => [] }) : IdxState K T).gen = gen :=
          backfill_gen gen tbl.entities (fun _ => [])
        simp only [hgen]
        simpa using hb

theorem tableInv_runOps {K T : Type} [DecidableEq K] (getId : T → String)
    (ops : List (TableOp K T)) : tableInv getId (runOps getId ops) := by
  have hgen : ∀ (ops2 : List (TableOp K T)) (tbl : TableSt K T),
      tableInv getId tbl → tableInv getId (ops2.foldl (stepOp getId) tbl) := by
    intro ops2
    induction ops2 with
    | nil => intro tbl h; exact h
    | cons op rest ih =>
      intro tbl h
      exact ih _ (tableInv_step getId tbl op h)
  exact hgen ops _ (tableInv_empty getId)

/-- C1: in every table state reachable by insert, update, delete and
add_index from the empty table, every registered indexer's storage is
exactly synchronized with the primary map: an entry sits under a key
exactly when it is currently stored in the table and its generator
produces that key. -/
theorem C1_index_invariant {K T : Type} [DecidableEq K] (getId : T → String)
    (ops : List (TableOp K T)) (tid : Nat) (ix : IdxState K T)
    (hmem : (tid, ix) ∈ (runOps getId ops).indices) (k : K) (e : T) :
    e ∈ ix.storage k ↔
      (∃ id, (id, e) ∈ (runOps getId ops).entities) ∧ k ∈ ix.gen e := by
  obtain ⟨hwk, hnd, hidx⟩ := tableInv_runOps getId ops
  have hinv := hidx (tid, ix) hmem
  constructor
  · intro hmem2
    have hfe : e ∈ (ix.storage k).filter (fun x => decide (getId x = getId e)) :=
      List.mem_filter.mpr ⟨hmem2, by simp⟩
    rw [hinv k (getId e)] at hfe
    cases hlook : entLookup (getId e) (runOps getId ops).entities with
    | none =>
      rw [hlook] at hfe
      cases hfe
    | some e2 =>
      rw [hlook] at hfe
      have he2 : e = e2 := List.eq_of_mem_replicate hfe
      subst he2
      have hrep := List.mem_replicate.mp hfe
      refine ⟨⟨getId e, entLookup_mem _ _ _ hlook⟩, ?_⟩
      exact List.count_pos_iff.mp (Nat.pos_of_ne_zero hrep.1)
  · rintro ⟨⟨id, hide⟩, hk⟩
    have hgid : getId e = id := hwk (id, e) hide
    have hlook : entLookup id (runOps getId ops).entities = some e :=
      entLookup_of_mem_nodup _ _ _ hnd hide
    have hfilter := hinv k id
    rw [hlook] at hfilter
    have hpos : (ix.gen e).count k ≠ 0 :=
      Nat.pos_iff_ne_zero.mp (List.count_pos_iff.mpr hk)
    have hmem3 : e ∈ (ix.storage k).filter (fun x => decide (getId x = id)) := by
      rw [hfilter]
      exact List.mem_replicate.mpr ⟨hpos, rfl⟩
    exact List.mem_of_mem_filter hmem3

/-- A concrete operation sequence: register one indexer (type tag 0,
keys = the payload), then insert the entity ("x", 5). -/
def opsW : List (TableOp Nat (String × Nat)) :=
  [TableOp.addIdx 0 (fun p => [p.2]), TableOp.ins ("x", 5)]

/-- The table reached by `opsW`. -/
def tblW : TableSt Nat (String × Nat) := runOps Prod.fst opsW

/-- The indexer registered by `opsW`. -/
def ixW : IdxState Nat (String × Nat) :=
  (tblW.indices.head?.getD
    (0, { gen := fun _ => [], storage := fun _ => [] })).2

/-- C1 witness: the invariant evaluated on the concrete table `tblW`,
its registered indexer, key 5 and the stored entry. -/
theorem C1_index_invariant_witness :
    ("x", 5) ∈ ixW.storage 5 ↔
      (∃ id, (id, ("x", 5)) ∈ (runOps Prod.fst opsW).entities) ∧
        5 ∈ ixW.gen ("x", 5) :=
  C1_index_invariant Prod.fst opsW 0 ixW (List.Mem.head _) 5 ("x", 5)

/-- C2: insert of a present id fails with `EntityAlreadyExists`, update
and delete of an absent id fail with `EntityNotFound`, and in each
error case the whole table — primary map, every registered indexer's
storage, and the search-engine cache — is returned unchanged. -/
theorem C2_error_cases {K T : Type} [DecidableEq K] (getId : T → String)
    (tbl : TableSt K T) (e : T) (id : String) :
    ((entLookup (getId e) tbl.entities).isSome = true →
      tableInsert getId tbl e =
        (tbl, some (DbErr.entityAlreadyExists (getId e)))) ∧
    (entLookup (getId e) tbl.entities = none →
      tableUpdate getId tbl e =
        (tbl, some (DbErr.entityNotFound (getId e)))) ∧
    (entLookup id tbl.entities = none →
      tableDelete getId tbl id = (tbl, some (DbErr.entityNotFound id))) := by
  refine ⟨?_, ?_, ?_⟩
  · intro h
    unfold tableInsert
    rw [if_pos h]
  · intro h
    unfold tableUpdate
    rw [h]
  · intro h
    unfold tableDelete
    rw [h]
    show ({ tbl with entities := entErase id tbl.entities },
      some (DbErr.entityNotFound id)) = (tbl, some (DbErr.entityNotFound id))
    rw [entErase_of_lookup_none _ _ h]

/-- C2 witness: the three error cases evaluated on the concrete table
`tblW`, which stores the id "x" and carries one registered indexer. -/
theorem C2_error_cases_witness :
    tableInsert Prod.fst tblW ("x", 7) =
      (tblW, some (DbErr.entityAlreadyExists "x")) ∧
    tableUpdate Prod.fst tblW ("y", 1) =
      (tblW, some (DbErr.entityNotFound "y")) ∧
    tableDelete Prod.fst tblW "z" =
      (tblW, some (DbErr.entityNotFound "z")) :=
  ⟨(C2_error_cases Prod.fst tblW ("x", 7) "z").1 (by rfl),
   (C2_error_cases Prod.fst tblW ("y", 1) "z").2.1 (by rfl),
   (C2_error_cases Prod.fst tblW ("x", 7) "z").2.2 (by rfl)⟩

/-- C8: a second registration with an already-registered indexer type
tag is a no-op, and consequently (for generators that produce each key
at most once per entry, as the spec expects) every stored entry appears
at most once per key in a registered indexer's storage, in every
reachable table state. -/
theorem C8_add_index_at_most_once {K T : Type} [DecidableEq K]
    [DecidableEq T] (getId : T → String) (tbl : TableSt K T) (tid : Nat)
    (g2 : T → List K) (ops : List (TableOp K T)) (ix : IdxState K T)
    (k : K) (e : T) :
    ((tbl.indices.find? (fun p => p.1 == tid)).isSome = true →
      tableAddIndex tbl tid g2 = tbl) ∧
    ((tid, ix) ∈ (runOps getId ops).indices →
      (∀ x : T, (ix.gen x).Nodup) →
      (ix.storage k).count e ≤ 1) := by
  constructor
  · intro h
    unfold tableAddIndex
    rw [if_pos h]
  · intro hmem hnodup
    obtain ⟨hwk, hnd, hidx⟩ := tableInv_runOps getId ops
    have hinv := hidx (tid, ix) hmem k (getId e)
    have hcf : (ix.storage k).count e =
        ((ix.storage k).filter (fun x => decide (getId x = getId e))).count e :=
      (List.count_filter (by simp)).symm
    rw [hcf, hinv]
    cases hlook : entLookup (getId e) (runOps getId ops).entities with
    | none => simp
    | some e2 =>
      rw [List.count_replicate]
      by_cases he : e2 == e
      · rw [if_pos he]
        exact List.nodup_iff_count_le_one.mp (hnodup e2) k
      · rw [if_neg he]
        exact Nat.zero_le 1

/-- C8 witness: a duplicate registration of the type tag 0 on `tblW` is
a no-op, and the stored entry appears at most once under its key. -/
theorem C8_add_index_at_most_once_witness :
    tableAddIndex tblW 0 (fun p => [p.2 + 1]) = tblW ∧
    (ixW.storage 5).count ("x", 5) ≤ 1 :=
  ⟨(C8_add_index_at_most_once Prod.fst tblW 0 (fun p => [p.2 + 1]) opsW ixW
      5 ("x", 5)).1 (by rfl),
   (C8_add_index_at_most_once Prod.fst tblW 0 (fun p => [p.2 + 1]) opsW ixW
      5 ("x", 5)).2 (List.Mem.head _) (fun x => List.nodup_singleton x.2)⟩

end Whim
